import Mathlib

/-!
Verification of the SwampLocks constrained portfolio weight optimizer
(`optimizePortfolio` from the frontend's DiversityOptimizer component).

The TypeScript source operates on IEEE doubles; we embed it over exact
rational arithmetic (`ℚ`), which is the reading the specification's
"within floating-point tolerance (exactly, in exact rational arithmetic)"
clauses call for.  The mutable `weights` array becomes a total function
`ℕ → ℚ` that the loop updates functionally; the shrinking `active`
index list stays a `List ℕ`.
-/

/-- Input record: `{ sector: string; performance: number }`. -/
structure Item where
  sector : String
  performance : ℚ
deriving Repr, DecidableEq

instance : Inhabited Item := ⟨⟨"", 0⟩⟩

/-- Output record: `{ sector: string; performance: number; weight: number }`. -/
structure WeightedItem where
  sector : String
  performance : ℚ
  weight : ℚ
deriving Repr, DecidableEq

instance : Inhabited WeightedItem := ⟨⟨"", 0, 0⟩⟩

/-- The performance array `r = items.map(x => x.performance)`, read at index `i`
(out-of-range reads return the default 0; the source only reads `i < items.length`). -/
def itemPerf (items : List Item) (i : ℕ) : ℚ :=
  (items.getD i default).performance

/-- `lambda = (alpha * sumR - 2 * (1 - alpha)) / freeCount` where
`sumR = active.reduce((acc, i) => acc + r[i], 0)` and `freeCount = active.length`. -/
def lamQ (alpha : ℚ) (r : ℕ → ℚ) (active : List ℕ) : ℚ :=
  (alpha * (active.map r).sum - 2 * (1 - alpha)) / (active.length : ℚ)

/-- The provisional stationary weight computed for an active index:
`w_i = (alpha * r[i] - lambda) / (2 * (1 - alpha))`. -/
def pw (alpha : ℚ) (r : ℕ → ℚ) (active : List ℕ) (i : ℕ) : ℚ :=
  (alpha * r i - lamQ alpha r active) / (2 * (1 - alpha))

/-- The active-set loop (`while (true) { ... }`) of `optimizePortfolio`.
Each iteration: if the active list is empty, stop; otherwise write the
provisional weights into the array, and either normalize and stop (no
negative weight), or zero out the non-positive entries, drop them from
the active list, and continue (stopping if the list did not shrink). -/
def activeLoop (alpha : ℚ) (r : ℕ → ℚ) (weights : ℕ → ℚ) (active : List ℕ) : ℕ → ℚ :=
  if active.length = 0 then weights
  else
    let wprov : ℕ → ℚ := fun i => if i ∈ active then pw alpha r active i else weights i
    if active.any (fun i => decide (wprov i < 0)) then
      let newActive := active.filter (fun i => decide (0 < wprov i))
      let wzero : ℕ → ℚ := fun i => if i ∈ active ∧ ¬ 0 < wprov i then 0 else wprov i
      if h : newActive.length = active.length then wzero
      else activeLoop alpha r wzero newActive
    else
      let sumW := (active.map wprov).sum
      if sumW ≤ 0 then fun i => if i ∈ active then 1 / (active.length : ℚ) else wprov i
      else fun i => if i ∈ active then wprov i / sumW else wprov i
termination_by active.length
decreasing_by
  simp_wf
  exact lt_of_le_of_ne (List.length_filter_le _ _) h

/-- Number of executed iterations of the active-set loop (an iteration is one
run of the `while` body past the `freeCount === 0` check), mirroring
`activeLoop` step for step. -/
def activeLoopIters (alpha : ℚ) (r : ℕ → ℚ) (active : List ℕ) : ℕ :=
  if active.length = 0 then 0
  else
    let wprov : ℕ → ℚ := fun i => pw alpha r active i
    if active.any (fun i => decide (wprov i < 0)) then
      let newActive := active.filter (fun i => decide (0 < wprov i))
      if h : newActive.length = active.length then 1
      else 1 + activeLoopIters alpha r newActive
    else 1
termination_by active.length
decreasing_by
  simp_wf
  exact lt_of_le_of_ne (List.length_filter_le _ _) h

/-- The `alpha === 1` branch's scan for the best index:
`maxIdx = 0; maxPerf = r 0; for (i = 1; i < n; i++) if (r i > maxPerf) update`. -/
def bestPair (r : ℕ → ℚ) (n : ℕ) : ℕ × ℚ :=
  (List.range' 1 (n - 1)).foldl
    (fun st i => if st.2 < r i then (i, r i) else st) (0, r 0)

/-- Shallow embedding of `optimizePortfolio(items, alpha)`. -/
def optimizePortfolio (items : List Item) (alpha : ℚ) : List WeightedItem :=
  let n := items.length
  if n = 0 then []
  else if alpha = 1 then
    let best := bestPair (itemPerf items) n
    items.enum.map fun p =>
      { sector := p.2.sector, performance := p.2.performance,
        weight := if p.1 = best.1 then 1 else 0 }
  else
    let w := activeLoop alpha (itemPerf items) (fun _ => 0) (List.range n)
    items.enum.map fun p =>
      { sector := p.2.sector, performance := p.2.performance, weight := w p.1 }

/-- The weight the optimizer assigns to index `i` (0 past the end). -/
def outWeight (items : List Item) (alpha : ℚ) (i : ℕ) : ℚ :=
  ((optimizePortfolio items alpha).getD i default).weight

/-- Modelled from the spec: the objective of the quadratic program of §4.1,
`alpha * Σ r_i * w_i - (1 - alpha) * Σ w_i²`, summed over the item indices. -/
def qpObjective (items : List Item) (alpha : ℚ) (w : ℕ → ℚ) : ℚ :=
  alpha * ∑ i ∈ Finset.range items.length, itemPerf items i * w i
    - (1 - alpha) * ∑ i ∈ Finset.range items.length, (w i) ^ 2

/-- Modelled from the spec: feasibility for the quadratic program,
`Σ w_i = 1` and `w_i ≥ 0` over the item indices. -/
def qpFeasible (n : ℕ) (w : ℕ → ℚ) : Prop :=
  (∀ i < n, 0 ≤ w i) ∧ ∑ i ∈ Finset.range n, w i = 1

/-! ### Elementary list-sum facts used throughout -/

/-- Sum of an affine image of a list. -/
lemma sum_map_affine (l : List ℕ) (r : ℕ → ℚ) (a b : ℚ) :
    (l.map (fun i => a * r i - b)).sum = a * (l.map r).sum - l.length * b := by
  induction l with
  | nil => simp
  | cons x xs ih => simp [ih]; ring

/-- Dividing each summand divides the sum. -/
lemma sum_map_div (l : List ℕ) (f : ℕ → ℚ) (c : ℚ) :
    (l.map (fun i => f i / c)).sum = (l.map f).sum / c := by
  induction l with
  | nil => simp
  | cons x xs ih => simp [ih]; ring

/-- A list sum splits along a boolean filter. -/
lemma sum_map_filter_split (l : List ℕ) (f : ℕ → ℚ) (p : ℕ → Bool) :
    ((l.filter p).map f).sum + ((l.filter (fun i => !p i)).map f).sum
      = (l.map f).sum := by
  induction l with
  | nil => simp
  | cons x xs ih =>
    by_cases hx : p x = true <;> simp [List.filter_cons, hx, ← ih] <;> ring

/-- Filter lengths split a list length. -/
lemma length_filter_split (l : List ℕ) (p : ℕ → Bool) :
    (l.filter p).length + (l.filter (fun i => !p i)).length = l.length := by
  induction l with
  | nil => simp
  | cons x xs ih =>
    by_cases hx : p x = true <;> simp [List.filter_cons, hx, ← ih] <;> omega

/-! ### The per-iteration stationary solution -/

/-- With `alpha ≠ 1`, the provisional weights over a non-empty active list sum
to exactly 1: the Lagrange-multiplier formula enforces the equality constraint
exactly in rational arithmetic. -/
lemma pw_sum (alpha : ℚ) (r : ℕ → ℚ) (active : List ℕ)
    (hα : alpha ≠ 1) (hne : active ≠ []) :
    ((active.map (pw alpha r active)).sum) = 1 := by
  have hc : (2 : ℚ) * (1 - alpha) ≠ 0 := by
    intro h
    apply hα
    have : (1 : ℚ) - alpha = 0 := by linarith [mul_eq_zero.mp h]
    linarith
  have hlen : ((active.length : ℚ)) ≠ 0 := by
    exact_mod_cast fun h => hne (List.length_eq_zero.mp h)
  have hmul : lamQ alpha r active * (active.length : ℚ)
      = alpha * (active.map r).sum - 2 * (1 - alpha) := by
    unfold lamQ
    field_simp
  unfold pw
  rw [sum_map_div, sum_map_affine]
  rw [div_eq_one_iff_eq hc]
  nlinarith [hmul]

/-- Sign of a provisional weight, read off the numerator (`alpha < 1`). -/
lemma pw_nonpos_iff (alpha : ℚ) (r : ℕ → ℚ) (active : List ℕ) (i : ℕ)
    (hα : alpha < 1) :
    pw alpha r active i ≤ 0 ↔ alpha * r i ≤ lamQ alpha r active := by
  have hc : (0 : ℚ) < 2 * (1 - alpha) := by linarith
  unfold pw
  rw [div_nonpos_iff]
  constructor
  · rintro (⟨h1, h2⟩ | ⟨h1, _⟩)
    · linarith
    · linarith
  · intro h
    exact Or.inr ⟨by linarith, by linarith⟩

/-- Positivity of a provisional weight, read off the numerator (`alpha < 1`). -/
lemma pw_pos_iff (alpha : ℚ) (r : ℕ → ℚ) (active : List ℕ) (i : ℕ)
    (hα : alpha < 1) :
    0 < pw alpha r active i ↔ lamQ alpha r active < alpha * r i := by
  rw [← not_iff_not, not_lt, not_lt, pw_nonpos_iff _ _ _ _ hα]

/-- Pulling a scalar out of a mapped sum. -/
lemma sum_map_mul_left (l : List ℕ) (f : ℕ → ℚ) (a : ℚ) :
    (l.map (fun i => a * f i)).sum = a * (l.map f).sum := by
  induction l with
  | nil => simp
  | cons x xs ih => simp [ih]; ring

/-- A mapped sum of non-positive terms is non-positive. -/
lemma sum_map_nonpos (l : List ℕ) (f : ℕ → ℚ) (h : ∀ i ∈ l, f i ≤ 0) :
    (l.map f).sum ≤ 0 := by
  induction l with
  | nil => simp
  | cons x xs ih =>
    simp only [List.map_cons, List.sum_cons]
    have hx := h x (List.mem_cons_self x xs)
    have hxs := ih (fun i hi => h i (List.mem_cons_of_mem x hi))
    linarith

/-- A mapped sum bounded above termwise by a constant. -/
lemma sum_map_le_card (l : List ℕ) (f : ℕ → ℚ) (c : ℚ) (h : ∀ i ∈ l, f i ≤ c) :
    (l.map f).sum ≤ l.length * c := by
  induction l with
  | nil => simp
  | cons x xs ih =>
    simp only [List.map_cons, List.sum_cons, List.length_cons]
    have hx := h x (List.mem_cons_self x xs)
    have hxs := ih (fun i hi => h i (List.mem_cons_of_mem x hi))
    push_cast
    linarith

/-- Dropping the indices whose provisional weight is non-positive can only
increase the Lagrange multiplier: the key monotonicity invariant of the
active-set loop. -/
lemma lam_mono (alpha : ℚ) (r : ℕ → ℚ) (active : List ℕ) (hα : alpha < 1)
    (hne : active ≠ [])
    (hfne : active.filter (fun i => decide (0 < pw alpha r active i)) ≠ []) :
    lamQ alpha r active
      ≤ lamQ alpha r (active.filter (fun i => decide (0 < pw alpha r active i))) := by
  set p : ℕ → Bool := fun i => decide (0 < pw alpha r active i) with hp
  set lam := lamQ alpha r active with hlam
  have hsplit := sum_map_filter_split active r p
  have hlens := length_filter_split active p
  have hDle : ((active.filter (fun i => !p i)).map (fun i => alpha * r i)).sum
      ≤ ((active.filter (fun i => !p i)).length : ℚ) * lam := by
    apply sum_map_le_card
    intro i hi
    have hiA : i ∈ active := List.mem_of_mem_filter hi
    have hnp : ¬ (0 < pw alpha r active i) := by
      have := (List.mem_filter.mp hi).2
      simpa [hp] using this
    exact (pw_nonpos_iff alpha r active i hα).mp (not_lt.mp hnp)
  have hAlen : (0 : ℚ) < ((active.filter p).length : ℚ) := by
    exact_mod_cast List.length_pos.mpr hfne
  have hactlen : ((active.length : ℚ)) ≠ 0 := by
    exact_mod_cast fun h => hne (List.length_eq_zero.mp h)
  have hmul : lam * (active.length : ℚ) = alpha * (active.map r).sum - 2 * (1 - alpha) := by
    rw [hlam]
    unfold lamQ
    field_simp
  rw [lamQ, le_div_iff₀ hAlen]
  have hsum2 : alpha * ((active.filter p).map r).sum
      = alpha * (active.map r).sum - ((active.filter (fun i => !p i)).map (fun i => alpha * r i)).sum := by
    rw [sum_map_mul_left, ← hsplit]
    ring
  have hcast : ((active.filter p).length : ℚ) + ((active.filter (fun i => !p i)).length : ℚ)
      = (active.length : ℚ) := by
    exact_mod_cast hlens
  have hexp : lam * ((active.filter p).length : ℚ)
      + lam * ((active.filter (fun i => !p i)).length : ℚ)
      = lam * (active.length : ℚ) := by
    rw [← hcast]; ring
  linarith [hDle, hmul, hsum2, hexp]

/-- Full postcondition of the active-set loop for `alpha < 1`: the loop settles
on a non-empty final active sublist `A` on which the returned weights are the
stationary weights for `A` (all non-negative), every index dropped along the
way ends at weight 0 with `alpha·r_i` dominated by the final multiplier, and
indices outside the initial active list keep their incoming weights. -/
lemma activeLoop_spec (alpha : ℚ) (r : ℕ → ℚ) (hα : alpha < 1) :
    ∀ (m : ℕ) (active : List ℕ) (weights : ℕ → ℚ),
      active.length ≤ m → active ≠ [] → active.Nodup →
      ∃ A : List ℕ, A ≠ [] ∧ A.Nodup ∧ A ⊆ active ∧
        lamQ alpha r active ≤ lamQ alpha r A ∧
        (∀ i ∈ A, activeLoop alpha r weights active i = pw alpha r A i ∧ 0 ≤ pw alpha r A i) ∧
        (∀ i ∈ active, i ∉ A →
          activeLoop alpha r weights active i = 0 ∧ alpha * r i ≤ lamQ alpha r A) ∧
        (∀ i, i ∉ active → activeLoop alpha r weights active i = weights i) := by
  intro m
  induction m with
  | zero =>
    intro active weights hlen hne _
    exact absurd (List.length_eq_zero.mp (Nat.le_zero.mp hlen)) hne
  | succ m ih =>
    intro active weights hlen hne hnd
    have hlen0 : ¬ active.length = 0 := fun h => hne (List.length_eq_zero.mp h)
    have hα1 : alpha ≠ 1 := ne_of_lt hα
    have hsum1 : ((active.map (pw alpha r active)).sum) = 1 := pw_sum alpha r active hα1 hne
    set wp : ℕ → ℚ := fun i => if i ∈ active then pw alpha r active i else weights i with hwp
    by_cases hneg : active.any (fun i => decide (wp i < 0)) = true
    · -- a provisional weight is negative: shrink the active list and recurse
      set pfun : ℕ → Bool := fun i => decide (0 < wp i) with hpfun
      set newActive := active.filter pfun with hnewA
      set wz : ℕ → ℚ := fun i => if i ∈ active ∧ ¬ 0 < wp i then 0 else wp i with hwz
      have hfilter_eq : newActive = active.filter (fun i => decide (0 < pw alpha r active i)) := by
        rw [hnewA]
        apply List.filter_congr
        intro x hx
        simp [hpfun, hwp, hx]
      have hfne : newActive ≠ [] := by
        rw [hfilter_eq]
        intro hempty
        have hall : ∀ i ∈ active, pw alpha r active i ≤ 0 := by
          intro i hi
          by_contra hpos
          have hmem : i ∈ active.filter (fun i => decide (0 < pw alpha r active i)) :=
            List.mem_filter.mpr ⟨hi, by simpa using not_le.mp hpos⟩
          rw [hempty] at hmem
          exact absurd hmem (List.not_mem_nil i)
        have := sum_map_nonpos active _ hall
        linarith
      have hlt : newActive.length < active.length := by
        rw [hnewA, List.length_filter_lt_length_iff_exists]
        obtain ⟨x, hx, hxneg⟩ := List.any_eq_true.mp hneg
        have hxneg2 : wp x < 0 := of_decide_eq_true hxneg
        exact ⟨x, hx, by simp [hpfun]; linarith⟩
      have hstep : activeLoop alpha r weights active = activeLoop alpha r wz newActive := by
        rw [activeLoop]
        simp only [if_neg hlen0, ← hwp, if_pos hneg, ← hpfun, ← hnewA, ← hwz,
          dif_neg (Nat.ne_of_lt hlt)]
      have hnd2 : newActive.Nodup := hnd.filter _
      obtain ⟨A, hAne, hAnd, hAsub, hAlam, hA1, hA2, hA3⟩ :=
        ih newActive wz (by omega) hfne hnd2
      have hsubact : newActive ⊆ active := by
        rw [hnewA]; exact (List.filter_sublist _).subset
      have hlam2 : lamQ alpha r active ≤ lamQ alpha r A := by
        refine le_trans ?_ hAlam
        rw [hfilter_eq]
        refine lam_mono alpha r active hα hne ?_
        rw [← hfilter_eq]; exact hfne
      refine ⟨A, hAne, hAnd, fun i hi => hsubact (hAsub hi), hlam2, ?_, ?_, ?_⟩
      · intro i hi
        rw [hstep]
        exact hA1 i hi
      · intro i hi hni
        rw [hstep]
        by_cases hiN : i ∈ newActive
        · exact hA2 i hiN hni
        · have h3 := hA3 i hiN
          have hnp : ¬ 0 < wp i := by
            intro hpos
            exact hiN (by rw [hnewA]; exact List.mem_filter.mpr ⟨hi, by simp [hpfun, hpos]⟩)
          have hwzi : wz i = 0 := by
            rw [hwz]; simp only [if_pos (And.intro hi hnp)]
          have hb : alpha * r i ≤ lamQ alpha r active := by
            have hple : pw alpha r active i ≤ 0 := by
              have : wp i = pw alpha r active i := by simp [hwp, hi]
              rw [this] at hnp
              exact not_lt.mp hnp
            exact (pw_nonpos_iff alpha r active i hα).mp hple
          exact ⟨by rw [h3, hwzi], le_trans hb hlam2⟩
      · intro i hi
        have hiN : i ∉ newActive := fun h => hi (hsubact h)
        have h3 := hA3 i hiN
        rw [hstep, h3, hwz]
        simp only [hwp]
        simp [hi]
    · -- all provisional weights are non-negative: normalize and stop
      have hpos : ∀ i ∈ active, 0 ≤ wp i := by
        intro i hi
        by_contra hcon
        exact hneg (List.any_eq_true.mpr ⟨i, hi, decide_eq_true (not_le.mp hcon)⟩)
      have hmapeq : active.map wp = active.map (pw alpha r active) :=
        List.map_congr_left (fun i hi => by simp [hwp, hi])
      have hsumW : (active.map wp).sum = 1 := by rw [hmapeq]; exact hsum1
      have hguard : ¬ ((active.map wp).sum ≤ 0) := by rw [hsumW]; norm_num
      have hstep : activeLoop alpha r weights active
          = fun i => if i ∈ active then wp i / (active.map wp).sum else wp i := by
        rw [activeLoop]
        simp only [if_neg hlen0, ← hwp, if_neg hneg, if_neg hguard]
      refine ⟨active, hne, hnd, fun i hi => hi, le_refl _, ?_, ?_, ?_⟩
      · intro i hi
        rw [hstep]
        simp only [if_pos hi, hsumW, div_one]
        have hwpi : wp i = pw alpha r active i := by simp [hwp, hi]
        exact ⟨hwpi, by rw [← hwpi]; exact hpos i hi⟩
      · intro i hi hni
        exact absurd hi hni
      · intro i hi
        rw [hstep]
        simp [hwp, hi]

/-! ### The alpha = 1 scan -/

/-- Invariant of the best-index scan: after folding indices `1..k`, the state
holds the first index attaining the running maximum. -/
lemma bestPair_inv (r : ℕ → ℚ) :
    ∀ k : ℕ,
      ((List.range' 1 k).foldl (fun st i => if st.2 < r i then (i, r i) else st) (0, r 0)).2
        = r ((List.range' 1 k).foldl (fun st i => if st.2 < r i then (i, r i) else st) (0, r 0)).1
      ∧ ((List.range' 1 k).foldl (fun st i => if st.2 < r i then (i, r i) else st) (0, r 0)).1 ≤ k
      ∧ (∀ i ≤ k, r i ≤
          ((List.range' 1 k).foldl (fun st i => if st.2 < r i then (i, r i) else st) (0, r 0)).2)
      ∧ (∀ i < ((List.range' 1 k).foldl (fun st i => if st.2 < r i then (i, r i) else st) (0, r 0)).1,
          r i <
          ((List.range' 1 k).foldl (fun st i => if st.2 < r i then (i, r i) else st) (0, r 0)).2) := by
  intro k
  induction k with
  | zero =>
    refine ⟨rfl, le_refl 0, ?_, ?_⟩
    · intro i hi
      simp [Nat.le_zero.mp hi]
    · intro i hi
      simp at hi
  | succ k ih =>
    obtain ⟨ihval, ihle, ihmax, ihfirst⟩ := ih
    have hconcat : List.range' 1 (k + 1) = List.range' 1 k ++ [1 + k] := by
      simpa using @List.range'_concat 1 1 k
    rw [hconcat, List.foldl_append]
    simp only [List.foldl_cons, List.foldl_nil]
    set st := (List.range' 1 k).foldl (fun st i => if st.2 < r i then (i, r i) else st) (0, r 0)
      with hst
    by_cases hcmp : st.2 < r (1 + k)
    · rw [if_pos hcmp]
      refine ⟨rfl, by omega, ?_, ?_⟩
      · intro i hi
        rcases Nat.lt_or_ge i (k + 1) with hik | hik
        · exact le_of_lt (lt_of_le_of_lt (ihmax i (by omega)) hcmp)
        · have : i = 1 + k := by omega
          rw [this]
      · intro i hi
        have : i ≤ k := by omega
        exact lt_of_le_of_lt (ihmax i this) hcmp
    · rw [if_neg hcmp]
      refine ⟨ihval, by omega, ?_, ihfirst⟩
      intro i hi
      rcases Nat.lt_or_ge i (k + 1) with hik | hik
      · exact ihmax i (by omega)
      · have : i = 1 + k := by omega
        rw [this]
        exact not_lt.mp hcmp

/-- The best-index scan returns the first index of maximal performance. -/
lemma bestPair_spec (r : ℕ → ℚ) (n : ℕ) (hn : 0 < n) :
    (bestPair r n).1 < n
    ∧ (∀ i < n, r i ≤ r (bestPair r n).1)
    ∧ (∀ i < (bestPair r n).1, r i < r (bestPair r n).1) := by
  obtain ⟨hval, hle, hmax, hfirst⟩ := bestPair_inv r (n - 1)
  unfold bestPair
  refine ⟨by omega, ?_, ?_⟩
  · intro i hi
    rw [← hval]
    exact hmax i (by omega)
  · intro i hi
    rw [← hval]
    exact hfirst i hi

/-! ### Shape of the returned list -/

/-- Reading an entry of the mapped enumeration. -/
lemma enum_map_getD (l : List Item) (f : ℕ × Item → WeightedItem) (i : ℕ) :
    (l.enum.map f).getD i default
      = if h : i < l.length then f (i, l[i]) else default := by
  rw [List.getD_eq_getElem?_getD, List.getElem?_map, List.getElem?_enum]
  by_cases h : i < l.length
  · rw [List.getElem?_eq_getElem h]
    simp [h]
  · rw [List.getElem?_eq_none (by omega)]
    simp [h]

/-- Unfolding the `alpha === 1` branch. -/
lemma optimizePortfolio_alpha1 (items : List Item) (hne : items ≠ []) :
    optimizePortfolio items 1 = items.enum.map (fun p =>
      { sector := p.2.sector, performance := p.2.performance,
        weight := if p.1 = (bestPair (itemPerf items) items.length).1 then 1 else 0 }) := by
  have h0 : ¬ items.length = 0 := fun h => hne (List.length_eq_zero.mp h)
  unfold optimizePortfolio
  simp only [if_neg h0, eq_self_iff_true, if_true]

/-- Unfolding the general (`alpha ≠ 1`) branch. -/
lemma optimizePortfolio_general (items : List Item) (alpha : ℚ)
    (hne : items ≠ []) (hα : alpha ≠ 1) :
    optimizePortfolio items alpha = items.enum.map (fun p =>
      { sector := p.2.sector, performance := p.2.performance,
        weight := activeLoop alpha (itemPerf items) (fun _ => 0)
          (List.range items.length) p.1 }) := by
  have h0 : ¬ items.length = 0 := fun h => hne (List.length_eq_zero.mp h)
  unfold optimizePortfolio
  simp only [if_neg h0, if_neg hα]

/-- The optimizer returns one weighted item per input item. -/
lemma optimizePortfolio_length (items : List Item) (alpha : ℚ) :
    (optimizePortfolio items alpha).length = items.length := by
  by_cases hne : items = []
  · subst hne; rfl
  · by_cases hα : alpha = 1
    · subst hα
      rw [optimizePortfolio_alpha1 items hne]
      simp
    · rw [optimizePortfolio_general items alpha hne hα]
      simp

/-- In the `alpha = 1` branch the weight at `i < n` is the best-index indicator. -/
lemma outWeight_alpha1 (items : List Item) (hne : items ≠ []) (i : ℕ)
    (hi : i < items.length) :
    outWeight items 1 i
      = if i = (bestPair (itemPerf items) items.length).1 then 1 else 0 := by
  unfold outWeight
  rw [optimizePortfolio_alpha1 items hne, enum_map_getD]
  simp [hi]

/-- In the general branch the weight at `i < n` is the loop's final weight. -/
lemma outWeight_general (items : List Item) (alpha : ℚ)
    (hne : items ≠ []) (hα : alpha ≠ 1) (i : ℕ) (hi : i < items.length) :
    outWeight items alpha i
      = activeLoop alpha (itemPerf items) (fun _ => 0) (List.range items.length) i := by
  unfold outWeight
  rw [optimizePortfolio_general items alpha hne hα, enum_map_getD]
  simp [hi]

/-! ### KKT structure of the returned weights (`alpha < 1`) -/

/-- The optimizer's output for `alpha < 1` is a stationary solution on a
non-empty final active sublist `A` with zero weights and dominated scores
outside `A`: the Karush-Kuhn-Tucker conditions of the spec's program. -/
lemma optimize_kkt (items : List Item) (alpha : ℚ)
    (hne : items ≠ []) (hα : alpha < 1) :
    ∃ A : List ℕ, A ≠ [] ∧ A.Nodup ∧ (∀ i ∈ A, i < items.length) ∧
      (∀ i ∈ A, outWeight items alpha i = pw alpha (itemPerf items) A i
        ∧ 0 ≤ pw alpha (itemPerf items) A i) ∧
      (∀ i < items.length, i ∉ A →
        outWeight items alpha i = 0
        ∧ alpha * itemPerf items i ≤ lamQ alpha (itemPerf items) A) := by
  have h0 : ¬ items.length = 0 := fun h => hne (List.length_eq_zero.mp h)
  have hrne : List.range items.length ≠ [] :=
    fun h => h0 (List.range_eq_nil.mp h)
  obtain ⟨A, hAne, hAnd, hAsub, _, hA1, hA2, _⟩ :=
    activeLoop_spec alpha (itemPerf items) hα items.length (List.range items.length)
      (fun _ => 0) (by simp) hrne (List.nodup_range _)
  have hmem : ∀ i ∈ A, i < items.length := fun i hi => List.mem_range.mp (hAsub hi)
  refine ⟨A, hAne, hAnd, hmem, ?_, ?_⟩
  · intro i hi
    rw [outWeight_general items alpha hne (ne_of_lt hα) i (hmem i hi)]
    exact hA1 i hi
  · intro i hi hni
    rw [outWeight_general items alpha hne (ne_of_lt hα) i hi]
    exact hA2 i (List.mem_range.mpr hi) hni

/-- Feasibility of the returned weights in the general branch. -/
lemma optimize_feasible_general (items : List Item) (alpha : ℚ)
    (hne : items ≠ []) (hα : alpha < 1) :
    qpFeasible items.length (outWeight items alpha) := by
  obtain ⟨A, hAne, hAnd, hmem, hA1, hA2⟩ := optimize_kkt items alpha hne hα
  constructor
  · intro i hi
    by_cases hiA : i ∈ A
    · obtain ⟨he, hge⟩ := hA1 i hiA
      rw [he]
      exact hge
    · rw [(hA2 i hi hiA).1]
  · have hsub : A.toFinset ⊆ Finset.range items.length := by
      intro i hi
      rw [Finset.mem_range]
      exact hmem i (List.mem_toFinset.mp hi)
    have hsplit := Finset.sum_sdiff (f := outWeight items alpha) hsub
    have hzero : ∑ i ∈ Finset.range items.length \ A.toFinset, outWeight items alpha i = 0 := by
      apply Finset.sum_eq_zero
      intro i hi
      rw [Finset.mem_sdiff, Finset.mem_range] at hi
      exact (hA2 i hi.1 (fun hmA => hi.2 (List.mem_toFinset.mpr hmA))).1
    have hone : ∑ i ∈ A.toFinset, outWeight items alpha i = 1 := by
      have hcongr : ∑ i ∈ A.toFinset, outWeight items alpha i
          = ∑ i ∈ A.toFinset, pw alpha (itemPerf items) A i :=
        Finset.sum_congr rfl (fun i hi => (hA1 i (List.mem_toFinset.mp hi)).1)
      rw [hcongr, List.sum_toFinset _ hAnd]
      exact pw_sum alpha (itemPerf items) A (ne_of_lt hα) hAne
    rw [← hsplit, hzero, hone]
    norm_num

/-- Feasibility of the returned weights in the `alpha = 1` branch. -/
lemma optimize_feasible_alpha1 (items : List Item) (hne : items ≠ []) :
    qpFeasible items.length (outWeight items 1) := by
  have h0 : 0 < items.length := List.length_pos.mpr hne
  obtain ⟨hjlt, _, _⟩ := bestPair_spec (itemPerf items) items.length h0
  constructor
  · intro i hi
    rw [outWeight_alpha1 items hne i hi]
    split <;> norm_num
  · have hcongr : ∀ i ∈ Finset.range items.length, outWeight items 1 i
        = if i = (bestPair (itemPerf items) items.length).1 then (1 : ℚ) else 0 :=
      fun i hi => outWeight_alpha1 items hne i (Finset.mem_range.mp hi)
    rw [Finset.sum_congr rfl hcongr, Finset.sum_ite_eq']
    rw [if_pos (Finset.mem_range.mpr hjlt)]

/-- C1: for a non-empty input and `0 ≤ alpha < 1`, the weight vector returned
by `optimizePortfolio` is an optimal solution of the quadratic program
`maximize alpha·Σ r_i·w_i − (1−alpha)·Σ w_i²` subject to `Σ w_i = 1`, `w_i ≥ 0`:
no feasible vector achieves a larger objective value. -/
theorem C1_optimal (items : List Item) (alpha : ℚ) (v : ℕ → ℚ)
    (hne : items ≠ []) (h0 : 0 ≤ alpha) (h1 : alpha < 1)
    (hv : qpFeasible items.length v) :
    qpObjective items alpha v ≤ qpObjective items alpha (outWeight items alpha) := by
  obtain ⟨A, hAne, hAnd, hmem, hA1, hA2⟩ := optimize_kkt items alpha hne h1
  obtain ⟨hwpos, hwsum⟩ := optimize_feasible_general items alpha hne h1
  set n := items.length with hn
  set r := itemPerf items with hr
  set w := outWeight items alpha with hw
  set lamf := lamQ alpha r A with hlamf
  have hcne : (2 : ℚ) * (1 - alpha) ≠ 0 := by
    intro h
    have : (1 : ℚ) - alpha = 0 := by linarith [mul_eq_zero.mp h]
    linarith
  have hobj : ∀ u : ℕ → ℚ, qpObjective items alpha u
      = ∑ i ∈ Finset.range n, (alpha * r i * u i - (1 - alpha) * u i ^ 2) := by
    intro u
    unfold qpObjective
    rw [Finset.mul_sum, Finset.mul_sum, ← Finset.sum_sub_distrib]
    exact Finset.sum_congr rfl (fun i _ => by ring)
  have key : ∀ i ∈ Finset.range n,
      alpha * r i * v i - (1 - alpha) * v i ^ 2
        ≤ (alpha * r i * w i - (1 - alpha) * w i ^ 2) + lamf * (v i - w i) := by
    intro i hi
    have hsq : (0 : ℚ) ≤ (1 - alpha) * (v i - w i) ^ 2 :=
      mul_nonneg (by linarith) (sq_nonneg _)
    by_cases hiA : i ∈ A
    · have hwi : w i = pw alpha r A i := (hA1 i hiA).1
      have hg : alpha * r i - 2 * (1 - alpha) * w i = lamf := by
        rw [hwi]
        unfold pw
        field_simp
      have hident : alpha * r i * v i - (1 - alpha) * v i ^ 2
          = (alpha * r i * w i - (1 - alpha) * w i ^ 2)
            + (alpha * r i - 2 * (1 - alpha) * w i) * (v i - w i)
            - (1 - alpha) * (v i - w i) ^ 2 := by ring
      rw [hident, hg]
      linarith
    · have hilt : i < n := Finset.mem_range.mp hi
      obtain ⟨hwi, hb⟩ := hA2 i hilt hiA
      have hvnn : 0 ≤ v i := hv.1 i hilt
      have hmul : alpha * r i * v i ≤ lamf * v i := by
        have := mul_le_mul_of_nonneg_right hb hvnn
        linarith [this]
      have hv2 : (0 : ℚ) ≤ (1 - alpha) * v i ^ 2 :=
        mul_nonneg (by linarith) (sq_nonneg _)
      rw [hwi]
      ring_nf
      nlinarith [hmul, hv2]
  have hsumle := Finset.sum_le_sum key
  have hsplit : ∑ i ∈ Finset.range n,
      ((alpha * r i * w i - (1 - alpha) * w i ^ 2) + lamf * (v i - w i))
      = (∑ i ∈ Finset.range n, (alpha * r i * w i - (1 - alpha) * w i ^ 2))
        + lamf * ((∑ i ∈ Finset.range n, v i) - (∑ i ∈ Finset.range n, w i)) := by
    rw [Finset.sum_add_distrib, ← Finset.mul_sum, Finset.sum_sub_distrib]
    congr 1
    rw [Finset.sum_sub_distrib]
  rw [hobj v, hobj w]
  rw [hsplit] at hsumle
  rw [hv.2, hwsum] at hsumle
  simpa using hsumle

/-- C2: for any non-empty input and `alpha ∈ [0,1]`, every output weight is
non-negative and the output weights sum to exactly 1 (exact rational
arithmetic; a rational is always finite). -/
theorem C2_weights_valid (items : List Item) (alpha : ℚ)
    (hne : items ≠ []) (h0 : 0 ≤ alpha) (h1 : alpha ≤ 1) :
    (∀ x ∈ optimizePortfolio items alpha, 0 ≤ x.weight)
    ∧ ∑ i ∈ Finset.range items.length, outWeight items alpha i = 1 := by
  have hfeas : qpFeasible items.length (outWeight items alpha) := by
    by_cases hα : alpha = 1
    · subst hα
      exact optimize_feasible_alpha1 items hne
    · exact optimize_feasible_general items alpha hne (lt_of_le_of_ne h1 hα)
  refine ⟨?_, hfeas.2⟩
  intro x hx
  obtain ⟨i, hi, rfl⟩ := List.mem_iff_getElem.mp hx
  have hlen : i < items.length := by
    rw [← optimizePortfolio_length items alpha]
    exact hi
  have hval : (optimizePortfolio items alpha)[i].weight = outWeight items alpha i := by
    unfold outWeight
    rw [List.getD_eq_getElem?_getD, List.getElem?_eq_getElem hi]
    rfl
  rw [hval]
  exact hfeas.1 i hlen

/-- An entry of either branch's output keeps the input's sector and performance. -/
lemma enum_map_pres (items : List Item) (g : ℕ → ℚ) (i : ℕ) :
    (((items.enum.map (fun p => WeightedItem.mk p.2.sector p.2.performance (g p.1))).getD
        i default).sector
      = (items.getD i default).sector)
    ∧ (((items.enum.map (fun p => WeightedItem.mk p.2.sector p.2.performance (g p.1))).getD
        i default).performance
      = (items.getD i default).performance) := by
  rw [enum_map_getD]
  by_cases h : i < items.length
  · simp only [dif_pos h]
    rw [List.getD_eq_getElem?_getD, List.getElem?_eq_getElem h]
    exact ⟨rfl, rfl⟩
  · simp only [dif_neg h]
    rw [List.getD_eq_getElem?_getD, List.getElem?_eq_none (by omega)]
    exact ⟨rfl, rfl⟩

/-- C3: the output has the same length as the input, and entrywise the same
sector and the same performance; the transform is pure, so the input is
untouched (it reappears on the right-hand sides below). -/
theorem C3_order_labels_preserved (items : List Item) (alpha : ℚ) :
    (optimizePortfolio items alpha).length = items.length
    ∧ ∀ i : ℕ,
      ((optimizePortfolio items alpha).getD i default).sector = (items.getD i default).sector
      ∧ ((optimizePortfolio items alpha).getD i default).performance
        = (items.getD i default).performance := by
  refine ⟨optimizePortfolio_length items alpha, ?_⟩
  intro i
  by_cases hne : items = []
  · subst hne
    exact ⟨rfl, rfl⟩
  · by_cases hα : alpha = 1
    · subst hα
      rw [optimizePortfolio_alpha1 items hne]
      exact enum_map_pres items
        (fun k => if k = (bestPair (itemPerf items) items.length).1 then 1 else 0) i
    · rw [optimizePortfolio_general items alpha hne hα]
      exact enum_map_pres items
        (activeLoop alpha (itemPerf items) (fun _ => 0) (List.range items.length)) i

/-- The `alpha = 1` branch puts weight 1 on the first maximal-performance
index and 0 elsewhere. -/
lemma weight_alpha1_char (items : List Item) (j : ℕ) (hne : items ≠ [])
    (hj : j < items.length)
    (hmax : ∀ i < items.length, itemPerf items i ≤ itemPerf items j)
    (hfirst : ∀ i < j, itemPerf items i < itemPerf items j) :
    ∀ i < items.length, outWeight items 1 i = if i = j then 1 else 0 := by
  have h0 : 0 < items.length := List.length_pos.mpr hne
  obtain ⟨hblt, hbmax, hbfirst⟩ := bestPair_spec (itemPerf items) items.length h0
  have hjb : j = (bestPair (itemPerf items) items.length).1 := by
    rcases Nat.lt_trichotomy j (bestPair (itemPerf items) items.length).1 with h | h | h
    · have := lt_of_lt_of_le (hbfirst j h) (hmax _ hblt)
      exact absurd this (lt_irrefl _)
    · exact h
    · have := lt_of_lt_of_le (hfirst _ h) (hbmax j hj)
      exact absurd this (lt_irrefl _)
  intro i hi
  rw [outWeight_alpha1 items hne i hi, ← hjb]

/-- C4: at `alpha = 1` the optimizer gives weight 1 to the first index of
maximal performance (first occurrence wins ties) and weight 0 elsewhere. -/
theorem C4_alpha_one_picks_first_max (items : List Item) (j : ℕ) (hne : items ≠ [])
    (hj : j < items.length)
    (hmax : ∀ i < items.length, itemPerf items i ≤ itemPerf items j)
    (hfirst : ∀ i < j, itemPerf items i < itemPerf items j) :
    ∀ i < items.length, outWeight items 1 i = if i = j then 1 else 0 :=
  weight_alpha1_char items j hne hj hmax hfirst

/-- On a singleton active list the loop returns the stationary weight 1 at
that index, for every `alpha ≠ 1`. -/
lemma activeLoop_singleton (alpha : ℚ) (r : ℕ → ℚ) (weights : ℕ → ℚ) (i0 : ℕ)
    (hα : alpha ≠ 1) :
    activeLoop alpha r weights [i0] i0 = 1 := by
  have hpw : pw alpha r [i0] i0 = 1 := by
    have hsum := pw_sum alpha r [i0] hα (by simp)
    simpa using hsum
  rw [activeLoop]
  simp [hpw]
  norm_num
  exact hpw

/-- C5: a single-item input receives weight exactly 1, for every `alpha`. -/
theorem C5_single_item (items : List Item) (alpha : ℚ) (hlen : items.length = 1) :
    outWeight items alpha 0 = 1 := by
  have hne : items ≠ [] := by
    intro h
    rw [h] at hlen
    simp at hlen
  by_cases hα : alpha = 1
  · subst hα
    have hchar := weight_alpha1_char items 0 hne (by omega)
      (fun i hi => by
        have hi0 : i = 0 := by omega
        rw [hi0])
      (fun i hi => by omega)
    have := hchar 0 (by omega)
    simpa using this
  · rw [outWeight_general items alpha hne hα 0 (by omega), hlen]
    rw [show List.range 1 = [0] from rfl]
    exact activeLoop_singleton alpha (itemPerf items) (fun _ => 0) 0 hα

/-- C6: the empty input yields the empty output for every `alpha`; the
embedding is a total function, so no error is possible. -/
theorem C6_empty_input (alpha : ℚ) : optimizePortfolio [] alpha = [] := rfl

/-- The loop executes at most as many iterations as there are active indices,
because the active list strictly shrinks whenever the loop continues. -/
lemma activeLoopIters_le (alpha : ℚ) (r : ℕ → ℚ) :
    ∀ (m : ℕ) (active : List ℕ), active.length ≤ m →
      activeLoopIters alpha r active ≤ active.length := by
  intro m
  induction m with
  | zero =>
    intro active hlen
    have hnil : active = [] := List.length_eq_zero.mp (Nat.le_zero.mp hlen)
    subst hnil
    rw [activeLoopIters]
    simp
  | succ m ih =>
    intro active hlen
    by_cases h0 : active.length = 0
    · rw [activeLoopIters]
      simp [h0]
    · rw [activeLoopIters]
      simp only [if_neg h0]
      by_cases hneg : (active.any fun i => decide (pw alpha r active i < 0)) = true
      · simp only [if_pos hneg]
        by_cases hal : (active.filter (fun i => decide (0 < pw alpha r active i))).length
            = active.length
        · rw [dif_pos hal]
          omega
        · rw [dif_neg hal]
          have hlt : (active.filter (fun i => decide (0 < pw alpha r active i))).length
              < active.length :=
            lt_of_le_of_ne (List.length_filter_le _ _) hal
          have hrec := ih (active.filter (fun i => decide (0 < pw alpha r active i))) (by omega)
          omega
      · simp only [if_neg hneg]
        omega

/-- C7: starting from all `n` indices active, the loop runs at most `n`
iterations. -/
theorem C7_terminates_in_n_iterations (items : List Item) (alpha : ℚ) :
    activeLoopIters alpha (itemPerf items) (List.range items.length) ≤ items.length := by
  have hb := activeLoopIters_le alpha (itemPerf items)
    (List.range items.length).length (List.range items.length) (le_refl _)
  simpa using hb

/-- For `alpha < 1` the returned weights have the water-filling shape
`max 0 (beta·r_i − tau)` with `beta = alpha / (2(1−alpha))`. -/
lemma outWeight_maxform (items : List Item) (alpha : ℚ)
    (hne : items ≠ []) (hα : alpha < 1) :
    ∃ tau : ℚ, ∀ i < items.length,
      outWeight items alpha i
        = max 0 (alpha / (2 * (1 - alpha)) * itemPerf items i - tau) := by
  obtain ⟨A, hAne, hAnd, hmem, hA1, hA2⟩ := optimize_kkt items alpha hne hα
  have hc : (0 : ℚ) < 2 * (1 - alpha) := by linarith
  refine ⟨lamQ alpha (itemPerf items) A / (2 * (1 - alpha)), ?_⟩
  intro i hi
  have hshape : pw alpha (itemPerf items) A i
      = alpha / (2 * (1 - alpha)) * itemPerf items i
        - lamQ alpha (itemPerf items) A / (2 * (1 - alpha)) := by
    unfold pw
    field_simp
  by_cases hiA : i ∈ A
  · obtain ⟨hval, hnn⟩ := hA1 i hiA
    rw [hval]
    rw [← hshape]
    symm
    rw [max_eq_right hnn]
  · obtain ⟨hval, hb⟩ := hA2 i hi hiA
    rw [hval]
    symm
    rw [max_eq_left]
    rw [← hshape]
    exact (pw_nonpos_iff alpha (itemPerf items) A i hα).mpr hb

/-- Pointwise comparison of two water-filling profiles that both sum to 1:
the coordinate of a maximal score can only grow when the slope grows. -/
lemma maxform_mono (r : ℕ → ℚ) (n j : ℕ) (b1 b2 t1 t2 : ℚ)
    (hb : b1 ≤ b2) (hj : j < n) (hmax : ∀ i < n, r i ≤ r j)
    (hs1 : ∑ i ∈ Finset.range n, max 0 (b1 * r i - t1) = 1)
    (hs2 : ∑ i ∈ Finset.range n, max 0 (b2 * r i - t2) = 1) :
    max 0 (b1 * r j - t1) ≤ max 0 (b2 * r j - t2) := by
  by_contra hcon
  push_neg at hcon
  have h1pos : (0 : ℚ) < max 0 (b1 * r j - t1) :=
    lt_of_le_of_lt (le_max_left 0 _) hcon
  have h1eq : max 0 (b1 * r j - t1) = b1 * r j - t1 := by
    rcases max_cases 0 (b1 * r j - t1) with ⟨h, _⟩ | ⟨h, _⟩
    · rw [h] at h1pos
      exact absurd h1pos (lt_irrefl 0)
    · exact h
  have hkey : b2 * r j - t2 < b1 * r j - t1 := by
    calc b2 * r j - t2 ≤ max 0 (b2 * r j - t2) := le_max_right 0 _
    _ < max 0 (b1 * r j - t1) := hcon
    _ = b1 * r j - t1 := h1eq
  have hpt : ∀ i ∈ Finset.range n, max 0 (b2 * r i - t2) ≤ max 0 (b1 * r i - t1) := by
    intro i hi
    apply max_le_max (le_refl 0)
    have hri := hmax i (Finset.mem_range.mp hi)
    nlinarith [mul_nonneg (sub_nonneg.mpr hb) (sub_nonneg.mpr hri)]
  have hlt := Finset.sum_lt_sum hpt ⟨j, Finset.mem_range.mpr hj, hcon⟩
  rw [hs1, hs2] at hlt
  exact absurd hlt (lt_irrefl 1)

/-- C8: with the input fixed, the weight of the first maximal-performance item
is monotone non-decreasing in `alpha` on `[0, 1]`. -/
theorem C8_weight_monotone_in_alpha (items : List Item) (a1 a2 : ℚ) (j : ℕ)
    (hne : items ≠ []) (h0 : 0 ≤ a1) (h12 : a1 ≤ a2) (h21 : a2 ≤ 1)
    (hj : j < items.length)
    (hmax : ∀ i < items.length, itemPerf items i ≤ itemPerf items j)
    (hfirst : ∀ i < j, itemPerf items i < itemPerf items j) :
    outWeight items a1 j ≤ outWeight items a2 j := by
  by_cases ha2 : a2 = 1
  · subst ha2
    have hw2 : outWeight items 1 j = 1 := by
      have := weight_alpha1_char items j hne hj hmax hfirst j hj
      simpa using this
    rw [hw2]
    by_cases ha1 : a1 = 1
    · subst ha1
      rw [hw2]
    · have ha1lt : a1 < 1 := lt_of_le_of_ne (le_trans h12 h21) ha1
      obtain ⟨hnn, hsum⟩ := optimize_feasible_general items a1 hne ha1lt
      calc outWeight items a1 j
          ≤ ∑ i ∈ Finset.range items.length, outWeight items a1 i :=
            Finset.single_le_sum (fun i hi => hnn i (Finset.mem_range.mp hi))
              (Finset.mem_range.mpr hj)
        _ = 1 := hsum
  · have ha2lt : a2 < 1 := lt_of_le_of_ne h21 ha2
    have ha1lt : a1 < 1 := lt_of_le_of_lt h12 ha2lt
    have hc1 : (0 : ℚ) < 2 * (1 - a1) := by linarith
    have hc2 : (0 : ℚ) < 2 * (1 - a2) := by linarith
    obtain ⟨t1, hm1⟩ := outWeight_maxform items a1 hne ha1lt
    obtain ⟨t2, hm2⟩ := outWeight_maxform items a2 hne ha2lt
    have hbeta : a1 / (2 * (1 - a1)) ≤ a2 / (2 * (1 - a2)) := by
      rw [div_le_div_iff₀ hc1 hc2]
      nlinarith [h12]
    have hs1 : ∑ i ∈ Finset.range items.length,
        max 0 (a1 / (2 * (1 - a1)) * itemPerf items i - t1) = 1 := by
      rw [← Finset.sum_congr rfl (fun i hi => hm1 i (Finset.mem_range.mp hi))]
      exact (optimize_feasible_general items a1 hne ha1lt).2
    have hs2 : ∑ i ∈ Finset.range items.length,
        max 0 (a2 / (2 * (1 - a2)) * itemPerf items i - t2) = 1 := by
      rw [← Finset.sum_congr rfl (fun i hi => hm2 i (Finset.mem_range.mp hi))]
      exact (optimize_feasible_general items a2 hne ha2lt).2
    have hmono := maxform_mono (itemPerf items) items.length j
      (a1 / (2 * (1 - a1))) (a2 / (2 * (1 - a2))) t1 t2 hbeta hj hmax hs1 hs2
    rw [hm1 j hj, hm2 j hj]
    exact hmono

/-- One removal iteration of the loop: when some provisional weight is
negative, the loop zeroes every non-positive provisional entry and recurses
on the list filtered by strict positivity. -/
lemma activeLoop_removal_step (alpha : ℚ) (r : ℕ → ℚ) (weights : ℕ → ℚ)
    (active : List ℕ) (hneg : ∃ i ∈ active, pw alpha r active i < 0) :
    activeLoop alpha r weights active
      = activeLoop alpha r
          (fun i => if i ∈ active ∧ ¬ 0 < (if i ∈ active then pw alpha r active i else weights i)
            then 0 else (if i ∈ active then pw alpha r active i else weights i))
          (active.filter (fun i => decide
            (0 < (if i ∈ active then pw alpha r active i else weights i)))) := by
  obtain ⟨i0, hi0, hneg0⟩ := hneg
  have hne : active ≠ [] := List.ne_nil_of_mem hi0
  have hlen0 : ¬ active.length = 0 := fun h => hne (List.length_eq_zero.mp h)
  set wp : ℕ → ℚ := fun i => if i ∈ active then pw alpha r active i else weights i with hwp
  have hwp0 : wp i0 < 0 := by
    rw [hwp]
    simp only [if_pos hi0]
    exact hneg0
  have hany : (active.any fun i => decide (wp i < 0)) = true :=
    List.any_eq_true.mpr ⟨i0, hi0, decide_eq_true hwp0⟩
  have hlt : (active.filter (fun i => decide (0 < wp i))).length < active.length := by
    rw [List.length_filter_lt_length_iff_exists]
    exact ⟨i0, hi0, by simp; linarith⟩
  rw [activeLoop]
  simp only [if_neg hlen0, ← hwp, if_pos hany, dif_neg (Nat.ne_of_lt hlt)]

/-- C9 (amended): in an iteration with a negative provisional weight, the
loop removes exactly the active indices whose provisional weight is
non-positive — an index whose weight is exactly 0 is removed as well, not
kept — sets them to 0, and continues on the filtered list. -/
theorem C9_removal_amended (alpha : ℚ) (r : ℕ → ℚ) (weights : ℕ → ℚ)
    (active : List ℕ) (hneg : ∃ i ∈ active, pw alpha r active i < 0) :
    (activeLoop alpha r weights active
      = activeLoop alpha r
          (fun i => if i ∈ active ∧ ¬ 0 < (if i ∈ active then pw alpha r active i else weights i)
            then 0 else (if i ∈ active then pw alpha r active i else weights i))
          (active.filter (fun i => decide
            (0 < (if i ∈ active then pw alpha r active i else weights i)))))
    ∧ (∀ i ∈ active,
        i ∈ active.filter (fun i => decide
            (0 < (if i ∈ active then pw alpha r active i else weights i)))
          ↔ 0 < pw alpha r active i) := by
  refine ⟨activeLoop_removal_step alpha r weights active hneg, ?_⟩
  intro i hi
  rw [List.mem_filter]
  simp [hi]

/-- C9 is refuted as stated: at items `[{A,4},{B,−2},{C,0}]` with `alpha = 1/2`
the provisional weights of the first iteration are `[2, −1, 0]`; index 2's
weight is exactly 0, yet index 2 is removed from the active list (the code
keeps only strictly positive entries), while the claim says it remains. -/
theorem C9_counterexample :
    pw (1/2) (itemPerf [⟨"A", 4⟩, ⟨"B", -2⟩, ⟨"C", 0⟩]) [0, 1, 2] 2 = 0
    ∧ pw (1/2) (itemPerf [⟨"A", 4⟩, ⟨"B", -2⟩, ⟨"C", 0⟩]) [0, 1, 2] 1 < 0
    ∧ 2 ∉ ([0, 1, 2].filter (fun i => decide
        (0 < (if i ∈ ([0, 1, 2] : List ℕ)
          then pw (1/2) (itemPerf [⟨"A", 4⟩, ⟨"B", -2⟩, ⟨"C", 0⟩]) [0, 1, 2] i
          else (0 : ℚ))))) := by
  refine ⟨?_, ?_, ?_⟩
  · norm_num [pw, lamQ, itemPerf]
  · norm_num [pw, lamQ, itemPerf]
  · norm_num [List.filter, pw, lamQ, itemPerf]

/-- C10: for `0 ≤ alpha < 1`, over any non-empty active list the provisional
weights sum to exactly 1 in rational arithmetic; hence the `sumW ≤ 0`
uniform-fallback guard is false, and the positivity-filtered next active
list is never empty. -/
theorem C10_provisional_sum_one (alpha : ℚ) (r : ℕ → ℚ) (active : List ℕ)
    (h0 : 0 ≤ alpha) (h1 : alpha < 1) (hne : active ≠ []) :
    (active.map (pw alpha r active)).sum = 1
    ∧ ¬ ((active.map (pw alpha r active)).sum ≤ 0)
    ∧ active.filter (fun i => decide (0 < pw alpha r active i)) ≠ [] := by
  have hs := pw_sum alpha r active (ne_of_lt h1) hne
  refine ⟨hs, by rw [hs]; norm_num, ?_⟩
  intro hempty
  have hall : ∀ i ∈ active, pw alpha r active i ≤ 0 := by
    intro i hi
    by_contra hpos
    have hmem : i ∈ active.filter (fun i => decide (0 < pw alpha r active i)) :=
      List.mem_filter.mpr ⟨hi, by simpa using not_le.mp hpos⟩
    rw [hempty] at hmem
    exact absurd hmem (List.not_mem_nil i)
  have hnp := sum_map_nonpos active _ hall
  linarith

/-! ### Concrete witnesses -/

/-- Witness instantiating C1 at `[{A,1},{B,0}]`, `alpha = 1/2`, against the
feasible vector putting all weight on the first item. -/
theorem C1_optimal_witness :
    qpObjective [⟨"A", 1⟩, ⟨"B", 0⟩] (1/2) (fun i => if i = 0 then 1 else 0)
      ≤ qpObjective [⟨"A", 1⟩, ⟨"B", 0⟩] (1/2)
          (outWeight [⟨"A", 1⟩, ⟨"B", 0⟩] (1/2)) :=
  C1_optimal [⟨"A", 1⟩, ⟨"B", 0⟩] (1/2) (fun i => if i = 0 then 1 else 0)
    (by simp) (by norm_num) (by norm_num)
    (by
      unfold qpFeasible
      refine ⟨?_, ?_⟩
      · intro i hi
        by_cases h : i = 0 <;> simp [h]
      · simp [Finset.sum_range_succ])

/-- Witness instantiating C2 at `[{X,3},{Y,−1}]`, `alpha = 1/3`. -/
theorem C2_weights_valid_witness :
    (∀ x ∈ optimizePortfolio [⟨"X", 3⟩, ⟨"Y", -1⟩] (1/3), 0 ≤ x.weight)
    ∧ ∑ i ∈ Finset.range (List.length ([⟨"X", 3⟩, ⟨"Y", -1⟩] : List Item)),
        outWeight [⟨"X", 3⟩, ⟨"Y", -1⟩] (1/3) i = 1 :=
  C2_weights_valid [⟨"X", 3⟩, ⟨"Y", -1⟩] (1/3) (by simp) (by norm_num) (by norm_num)

/-- Witness instantiating C4 at the spec's example `[{A,0.05},{B,0.20},{C,0.10}]`:
item B (index 1) wins. -/
theorem C4_alpha_one_picks_first_max_witness :
    (outWeight [⟨"A", 1/20⟩, ⟨"B", 1/5⟩, ⟨"C", 1/10⟩] 1 0 = if 0 = 1 then 1 else 0)
    ∧ (outWeight [⟨"A", 1/20⟩, ⟨"B", 1/5⟩, ⟨"C", 1/10⟩] 1 1 = if 1 = 1 then 1 else 0)
    ∧ (outWeight [⟨"A", 1/20⟩, ⟨"B", 1/5⟩, ⟨"C", 1/10⟩] 1 2 = if 2 = 1 then 1 else 0) :=
  ⟨C4_alpha_one_picks_first_max [⟨"A", 1/20⟩, ⟨"B", 1/5⟩, ⟨"C", 1/10⟩] 1
    (by simp) (by norm_num)
    (by
      intro i hi
      simp only [List.length_cons, List.length_nil] at hi
      interval_cases i <;> norm_num [itemPerf])
    (by
      intro i hi
      interval_cases i
      norm_num [itemPerf]) 0 (by norm_num),
  C4_alpha_one_picks_first_max [⟨"A", 1/20⟩, ⟨"B", 1/5⟩, ⟨"C", 1/10⟩] 1
    (by simp) (by norm_num)
    (by
      intro i hi
      simp only [List.length_cons, List.length_nil] at hi
      interval_cases i <;> norm_num [itemPerf])
    (by
      intro i hi
      interval_cases i
      norm_num [itemPerf]) 1 (by norm_num),
  C4_alpha_one_picks_first_max [⟨"A", 1/20⟩, ⟨"B", 1/5⟩, ⟨"C", 1/10⟩] 1
    (by simp) (by norm_num)
    (by
      intro i hi
      simp only [List.length_cons, List.length_nil] at hi
      interval_cases i <;> norm_num [itemPerf])
    (by
      intro i hi
      interval_cases i
      norm_num [itemPerf]) 2 (by norm_num)⟩

/-- Witness instantiating C5 at a one-item list with negative return. -/
theorem C5_single_item_witness :
    outWeight [⟨"Z", -7⟩] (3/4) 0 = 1 :=
  C5_single_item [⟨"Z", -7⟩] (3/4) (by simp)

/-- Witness instantiating C8 at `[{T,0.15},{H,0.10}]` with `alpha` rising
from 1/4 to 3/4. -/
theorem C8_weight_monotone_in_alpha_witness :
    outWeight [⟨"T", 3/20⟩, ⟨"H", 1/10⟩] (1/4) 0
      ≤ outWeight [⟨"T", 3/20⟩, ⟨"H", 1/10⟩] (3/4) 0 :=
  C8_weight_monotone_in_alpha [⟨"T", 3/20⟩, ⟨"H", 1/10⟩] (1/4) (3/4) 0
    (by simp) (by norm_num) (by norm_num) (by norm_num) (by simp)
    (by
      intro i hi
      simp only [List.length_cons, List.length_nil] at hi
      interval_cases i <;> norm_num [itemPerf])
    (by intro i hi; omega)

/-- Witness instantiating the amended C9 at the counterexample input. -/
theorem C9_removal_amended_witness :
    (activeLoop (1/2) (itemPerf [⟨"A", 4⟩, ⟨"B", -2⟩, ⟨"C", 0⟩]) (fun _ => 0) [0, 1, 2]
      = activeLoop (1/2) (itemPerf [⟨"A", 4⟩, ⟨"B", -2⟩, ⟨"C", 0⟩])
          (fun i => if i ∈ ([0, 1, 2] : List ℕ) ∧ ¬ 0 < (if i ∈ ([0, 1, 2] : List ℕ)
              then pw (1/2) (itemPerf [⟨"A", 4⟩, ⟨"B", -2⟩, ⟨"C", 0⟩]) [0, 1, 2] i
              else (0 : ℚ))
            then 0 else (if i ∈ ([0, 1, 2] : List ℕ)
              then pw (1/2) (itemPerf [⟨"A", 4⟩, ⟨"B", -2⟩, ⟨"C", 0⟩]) [0, 1, 2] i
              else (0 : ℚ)))
          ([0, 1, 2].filter (fun i => decide
            (0 < (if i ∈ ([0, 1, 2] : List ℕ)
              then pw (1/2) (itemPerf [⟨"A", 4⟩, ⟨"B", -2⟩, ⟨"C", 0⟩]) [0, 1, 2] i
              else (0 : ℚ))))))
    ∧ (∀ i ∈ ([0, 1, 2] : List ℕ),
        i ∈ [0, 1, 2].filter (fun i => decide
            (0 < (if i ∈ ([0, 1, 2] : List ℕ)
              then pw (1/2) (itemPerf [⟨"A", 4⟩, ⟨"B", -2⟩, ⟨"C", 0⟩]) [0, 1, 2] i
              else (0 : ℚ))))
          ↔ 0 < pw (1/2) (itemPerf [⟨"A", 4⟩, ⟨"B", -2⟩, ⟨"C", 0⟩]) [0, 1, 2] i) :=
  C9_removal_amended (1/2) (itemPerf [⟨"A", 4⟩, ⟨"B", -2⟩, ⟨"C", 0⟩]) (fun _ => 0) [0, 1, 2]
    ⟨1, by simp, by norm_num [pw, lamQ, itemPerf]⟩

/-- Witness instantiating C10 at `alpha = 1/4` over the active list `[0, 1]`. -/
theorem C10_provisional_sum_one_witness :
    (([0, 1] : List ℕ).map (pw (1/4) (itemPerf [⟨"U", 2⟩, ⟨"V", 1⟩]) [0, 1])).sum = 1
    ∧ ¬ ((([0, 1] : List ℕ).map (pw (1/4) (itemPerf [⟨"U", 2⟩, ⟨"V", 1⟩]) [0, 1])).sum ≤ 0)
    ∧ ([0, 1] : List ℕ).filter (fun i => decide
        (0 < pw (1/4) (itemPerf [⟨"U", 2⟩, ⟨"V", 1⟩]) [0, 1] i)) ≠ [] :=
  C10_provisional_sum_one (1/4) (itemPerf [⟨"U", 2⟩, ⟨"V", 1⟩]) [0, 1]
    (by norm_num) (by norm_num) (by simp)
